import Mathlib

/-!
Verification of the content-cache and delivery-coordinator core of the
whatsapp-customer-support-bot repository.

The cache model below is a shallow embedding of the `CacheManager` class in
`src/utils/CacheManager.js` (metadata entries carrying `createdAt`,
`lastAccessAt`, `accessCount` and a per-video map of `{size, cachedAt}`,
plus the on-disk set of cached video files).  JavaScript objects keep key
insertion order, which matters both for `for..in` iteration in
`cleanOldEntries` and for the stability of `Array.prototype.sort` in
`cleanBySize`; the metadata index is therefore modelled as an
insertion-ordered association list.  Timestamps and sizes are `Nat`.
`saveMetadata` is modelled by a persist counter on the state.

The coordinator model is a shallow embedding of
`MessageHandler.handleSeriesRequest` in `src/handlers/MessageHandler.ts`:
the `activeRequests` map, the busy guard, the `try`/`catch`/`finally`
structure (including the early `return` in the empty-video-list branch,
after which the `finally` block still runs), with the awaited external
effects (replies, Telegram fetch, delivery loop, database update)
abstracted into boolean fault flags.
-/

namespace WABot

/-- One cached video inside a series: `{size, cachedAt}` in the metadata file. -/
structure VideoMeta where
  size : Nat
  cachedAt : Nat
deriving DecidableEq, Repr

/-- One series entry of the metadata index. -/
structure SeriesMeta where
  createdAt : Nat
  lastAccessAt : Nat
  accessCount : Nat
  videos : List (String × VideoMeta)
deriving DecidableEq, Repr

/-- Whole cache state: the metadata index (insertion-ordered, as a JS object),
the set of `(seriesCode, videoId)` files on disk, and a counter of
`saveMetadata` calls (persist events). -/
structure CacheState where
  metadata : List (String × SeriesMeta)
  disk : List (String × String)
  saved : Nat
deriving DecidableEq, Repr

/-- Lookup in an insertion-ordered association list (JS property read). -/
def lookupA {α : Type} (k : String) : List (String × α) → Option α
  | [] => none
  | e :: rest => if e.1 = k then some e.2 else lookupA k rest

/-- Write to an insertion-ordered association list: existing keys keep their
position, new keys are appended (JS property assignment). -/
def setA {α : Type} (k : String) (v : α) : List (String × α) → List (String × α)
  | [] => [(k, v)]
  | e :: rest => if e.1 = k then (k, v) :: rest else e :: setA k v rest

/-- Delete a key from an association list (JS `delete obj[k]`). -/
def removeA {α : Type} (k : String) : List (String × α) → List (String × α)
  | [] => []
  | e :: rest => if e.1 = k then removeA k rest else e :: removeA k rest

@[simp] theorem lookupA_nil {α : Type} (k : String) : lookupA (α := α) k [] = none := rfl

theorem lookupA_cons {α : Type} (k : String) (e : String × α) (l : List (String × α)) :
    lookupA k (e :: l) = if e.1 = k then some e.2 else lookupA k l := rfl

@[simp] theorem lookupA_setA_self {α : Type} (k : String) (v : α) (l : List (String × α)) :
    lookupA k (setA k v l) = some v := by
  induction l with
  | nil => simp [setA, lookupA]
  | cons e rest ih =>
    by_cases h : e.1 = k <;> simp [setA, lookupA, h, ih]

theorem lookupA_setA_ne {α : Type} {k k' : String} (v : α) (l : List (String × α))
    (h : k' ≠ k) : lookupA k' (setA k v l) = lookupA k' l := by
  induction l with
  | nil => simp [setA, lookupA, Ne.symm h]
  | cons e rest ih =>
    by_cases he : e.1 = k
    · have he' : ¬ e.1 = k' := by
        rw [he]
        exact Ne.symm h
      simp [setA, he, lookupA_cons, he', Ne.symm h]
    · simp only [setA, if_neg he, lookupA_cons]
      by_cases he' : e.1 = k' <;> simp [he', ih]

@[simp] theorem lookupA_removeA_self {α : Type} (k : String) (l : List (String × α)) :
    lookupA k (removeA k l) = none := by
  induction l with
  | nil => simp [removeA]
  | cons e rest ih =>
    by_cases h : e.1 = k <;> simp [removeA, lookupA, h, ih]

theorem lookupA_removeA_ne {α : Type} {k k' : String} (l : List (String × α))
    (h : k' ≠ k) : lookupA k' (removeA k l) = lookupA k' l := by
  induction l with
  | nil => simp [removeA]
  | cons e rest ih =>
    by_cases he : e.1 = k
    · have he' : ¬ e.1 = k' := by
        rw [he]
        exact Ne.symm h
      simp [removeA, he, lookupA_cons, he', ih, Ne.symm h]
    · simp only [removeA, if_neg he, lookupA_cons]
      by_cases he' : e.1 = k' <;> simp [he', ih]

theorem mem_setA {α : Type} {k : String} {v : α} {l : List (String × α)}
    {e : String × α} (h : e ∈ setA k v l) : e = (k, v) ∨ e ∈ l := by
  induction l with
  | nil => simpa [setA] using h
  | cons e' rest ih =>
    by_cases he : e'.1 = k
    · simp only [setA, if_pos he, List.mem_cons] at h
      rcases h with h | h
      · exact Or.inl (by simp [h, Prod.ext_iff])
      · exact Or.inr (List.mem_cons_of_mem _ h)
    · simp only [setA, if_neg he, List.mem_cons] at h
      rcases h with h | h
      · exact Or.inr (by simp [h])
      · rcases ih h with h' | h'
        · exact Or.inl h'
        · exact Or.inr (List.mem_cons_of_mem _ h')

theorem removeA_sublist {α : Type} (k : String) (l : List (String × α)) :
    List.Sublist (removeA k l) l := by
  induction l with
  | nil => simp [removeA]
  | cons e rest ih =>
    by_cases h : e.1 = k
    · simpa [removeA, h] using ih.cons e
    · simpa [removeA, h] using ih.cons₂ e

theorem mem_removeA {α : Type} {k : String} {l : List (String × α)} {e : String × α}
    (h : e ∈ removeA k l) : e ∈ l :=
  (removeA_sublist k l).mem h

theorem mem_removeA_of_ne {α : Type} {k : String} {l : List (String × α)}
    {e : String × α} (hm : e ∈ l) (hne : e.1 ≠ k) : e ∈ removeA k l := by
  induction l with
  | nil => simp at hm
  | cons e' rest ih =>
    rcases List.mem_cons.mp hm with h | h
    · subst h
      simp [removeA, hne]
    · by_cases he : e'.1 = k
      · simp [removeA, he, ih h]
      · simp [removeA, he, List.mem_cons, ih h]

theorem lookupA_mem {α : Type} {k : String} {v : α} {l : List (String × α)}
    (h : lookupA k l = some v) : (k, v) ∈ l := by
  induction l with
  | nil => simp [lookupA] at h
  | cons e rest ih =>
    obtain ⟨a, b⟩ := e
    by_cases he : a = k
    · simp only [lookupA_cons, if_pos he] at h
      cases h
      subst he
      exact List.mem_cons_self _ _
    · simp only [lookupA_cons, if_neg he] at h
      exact List.mem_cons_of_mem _ (ih h)

theorem mem_lookupA {α : Type} {k : String} {v : α} {l : List (String × α)}
    (hnd : (l.map Prod.fst).Nodup) (h : (k, v) ∈ l) : lookupA k l = some v := by
  induction l with
  | nil => simp at h
  | cons e rest ih =>
    simp only [List.map_cons, List.nodup_cons] at hnd
    rcases List.mem_cons.mp h with h' | h'
    · simp [lookupA_cons, ← h']
    · have hk : e.1 ≠ k := by
        intro he
        exact hnd.1 (he ▸ (List.mem_map.mpr ⟨(k, v), h', rfl⟩))
      simp [lookupA_cons, hk, ih hnd.2 h']

theorem lookupA_isSome_iff {α : Type} {k : String} {l : List (String × α)} :
    (lookupA k l).isSome = true ↔ k ∈ l.map Prod.fst := by
  induction l with
  | nil => simp [lookupA]
  | cons e rest ih =>
    by_cases he : e.1 = k
    · simp [lookupA_cons, he]
    · have : ¬ k = e.1 := fun h => he h.symm
      simp [lookupA_cons, he, ih, this]

theorem keys_removeA_nodup {α : Type} (k : String) {l : List (String × α)}
    (hnd : (l.map Prod.fst).Nodup) : ((removeA k l).map Prod.fst).Nodup :=
  ((removeA_sublist k l).map Prod.fst).nodup hnd

/-- Sum of the `size` fields of a series' videos (the reduce in `cleanBySize`). -/
def seriesSize (m : SeriesMeta) : Nat := (m.videos.map (fun v => v.2.size)).sum

/-- Total cache size recomputed from the index (`getCacheStats().totalSize`). -/
def totalSize (md : List (String × SeriesMeta)) : Nat :=
  (md.map (fun e => seriesSize e.2)).sum

/-- Membership of a `(seriesCode, videoId)` file in the on-disk cache tree
(`fs.existsSync` on `getVideoPath`). -/
def diskHas (code vid : String) : List (String × String) → Bool
  | [] => false
  | p :: rest => if p.1 = code ∧ p.2 = vid then true else diskHas code vid rest

/-- Storage path of a cached video (`getVideoPath`). -/
def videoPath (code vid : String) : String := code ++ "/" ++ vid ++ ".mp4"

/-- Remove every disk file of one series (`fs.rmSync` of the series directory). -/
def removeDisk (code : String) : List (String × String) → List (String × String)
  | [] => []
  | p :: rest => if p.1 = code then removeDisk code rest else p :: removeDisk code rest

/-- `removeSeries`: drop the series directory and its index entry, persist. -/
def removeSeries (code : String) (s : CacheState) : CacheState :=
  { metadata := removeA code s.metadata
    disk := removeDisk code s.disk
    saved := s.saved + 1 }

/-- `isCached`: existence check of one video file. -/
def isCached (code vid : String) (s : CacheState) : Bool := diskHas code vid s.disk

/-- `isSeriesCached`: `videoIds.every((id) => this.isCached(seriesCode, id))`. -/
def isSeriesCached (code : String) (vids : List String) (s : CacheState) : Bool :=
  vids.all (fun vid => isCached code vid s)

/-- `updateAccessTime`: if the series has an index entry, stamp `lastAccessAt`,
bump `accessCount` and persist; otherwise do nothing. -/
def updateAccessTime (now : Nat) (code : String) (s : CacheState) : CacheState :=
  match lookupA code s.metadata with
  | some m =>
      { s with
        metadata := setA code
          { m with lastAccessAt := now, accessCount := m.accessCount + 1 } s.metadata
        saved := s.saved + 1 }
  | none => s

/-- `getCachedVideo`: on a disk hit, touch the access metadata and return the
path; otherwise return `null` and leave the state alone. -/
def getCachedVideo (now : Nat) (code vid : String) (s : CacheState) :
    CacheState × Option String :=
  if isCached code vid s then (updateAccessTime now code s, some (videoPath code vid))
  else (s, none)

/-- `cacheVideo`: copy the artifact into the cache (`copyOk` abstracts the
`mkdirSync`/`copyFileSync`/`statSync` calls that may throw; the catch block
returns `null` and performs no index mutation), then upsert the video entry,
create the series entry if new (`createdAt` set only then), touch
`lastAccessAt`/`accessCount` and persist.  `sz` is the copied file's size. -/
def cacheVideo (now : Nat) (code vid : String) (sz : Nat) (copyOk : Bool)
    (s : CacheState) : CacheState × Option String :=
  if copyOk then
    let base : SeriesMeta :=
      match lookupA code s.metadata with
      | some m => m
      | none => { createdAt := now, lastAccessAt := now, accessCount := 0, videos := [] }
    let m' : SeriesMeta :=
      { base with
        videos := setA vid { size := sz, cachedAt := now } base.videos
        lastAccessAt := now
        accessCount := base.accessCount + 1 }
    ({ metadata := setA code m' s.metadata
       disk := if diskHas code vid s.disk then s.disk else (code, vid) :: s.disk
       saved := s.saved + 1 }, some (videoPath code vid))
  else (s, none)

/-- One pass of `cleanOldEntries`' `for..in` loop over a key list: each visited
series whose creation age exceeds `maxAge` is removed.  JS `for..in` visits the
object's keys in insertion order, and `removeSeries` only deletes the key
currently being visited, so iterating the key list captured from the initial
state is faithful. -/
def cleanOldLoop (maxAge now : Nat) : List String → CacheState → CacheState
  | [], s => s
  | c :: cs, s =>
      cleanOldLoop maxAge now cs
        (match lookupA c s.metadata with
         | some m => if maxAge < now - m.createdAt then removeSeries c s else s
         | none => s)

/-- `cleanOldEntries`: age-based eviction keyed on `createdAt`. -/
def cleanOldEntries (maxAge now : Nat) (s : CacheState) : CacheState :=
  cleanOldLoop maxAge now (s.metadata.map Prod.fst) s

/-- One element of the `seriesList` array built by `cleanBySize`:
`{code, lastAccessAt, size}`. -/
structure EvEntry where
  code : String
  la : Nat
  sz : Nat
deriving DecidableEq, Repr

/-- The `seriesList` array before sorting, in index (insertion) order. -/
def evEntries (md : List (String × SeriesMeta)) : List EvEntry :=
  md.map (fun e => { code := e.1, la := e.2.lastAccessAt, sz := seriesSize e.2 })

/-- Stable insertion step for sorting by `lastAccessAt` ascending: an element
is placed before the first element with a greater-or-equal key, so elements
with equal keys keep their original relative order — the behaviour of the
(stable, per ES2019) `Array.prototype.sort` with comparator
`a.lastAccessAt - b.lastAccessAt`. -/
def insertLA (a : EvEntry) : List EvEntry → List EvEntry
  | [] => [a]
  | b :: l => if a.la ≤ b.la then a :: b :: l else b :: insertLA a l

/-- Stable sort by `lastAccessAt` ascending. -/
def sortLA : List EvEntry → List EvEntry
  | [] => []
  | x :: xs => insertLA x (sortLA xs)

/-- The removal loop of `cleanBySize`: walk the sorted list, break as soon as
the running size estimate is within the 20% headroom buffer
(`currentSize <= maxCacheSize * 0.8`, stated rationally as
`5 * cur ≤ 4 * maxC`), otherwise remove the series and subtract its size. -/
def evictLoop (maxC : Nat) : List EvEntry → Nat → CacheState → CacheState
  | [], _, s => s
  | e :: rest, cur, s =>
      if 5 * cur ≤ 4 * maxC then s
      else evictLoop maxC rest (cur - e.sz) (removeSeries e.code s)

/-- `cleanBySize`: no-op while total size is within `maxCacheSize`; otherwise
LRU-evict whole series in stable `lastAccessAt` order down to the 80% buffer. -/
def cleanBySize (maxC : Nat) (s : CacheState) : CacheState :=
  if totalSize s.metadata ≤ maxC then s
  else evictLoop maxC (sortLA (evEntries s.metadata)) (totalSize s.metadata) s

/-- `cleanup`: age-based eviction first, then size-based eviction — the
`runEviction()` entry point of the spec. -/
def cleanup (maxC maxAge now : Nat) (s : CacheState) : CacheState :=
  cleanBySize maxC (cleanOldEntries maxAge now s)

/-- Specification-side removal loop, written after the amended claim's words:
walk the candidate keys in order and stop as soon as the *recomputed* remaining
total size is within the 80% buffer, otherwise remove the series.  Unlike
`evictLoop` it carries no running size estimate. -/
def evictUntilBuffer (maxC : Nat) : List String → CacheState → CacheState
  | [], s => s
  | c :: rest, s =>
      if 5 * totalSize s.metadata ≤ 4 * maxC then s
      else evictUntilBuffer maxC rest (removeSeries c s)

/-- Specification-side size eviction per the amended claim: collections sorted
ascending by `lastAccessAt` with ties broken by the index's insertion order
(stable sort), removed until the remaining total is ≤ 80% of `maxCacheSize`;
no removal if the total is already within `maxCacheSize`. -/
def cleanBySizeStable (maxC : Nat) (s : CacheState) : CacheState :=
  if totalSize s.metadata ≤ maxC then s
  else evictUntilBuffer maxC ((sortLA (evEntries s.metadata)).map EvEntry.code) s

/-- Lexicographic code-point comparison of character lists. -/
def charListLt : List Char → List Char → Bool
  | [], [] => false
  | [], _ :: _ => true
  | _ :: _, [] => false
  | c :: cs, d :: ds =>
      if c.toNat < d.toNat then true
      else if d.toNat < c.toNat then false
      else charListLt cs ds

/-- Lexicographic order on collection identifiers. -/
def idLt (a b : String) : Bool := charListLt a.data b.data

/-- Insertion step for the ordering claimed by the spec sentence: ascending
`lastAccessAt` with ties broken by `collectionId`. -/
def insertLAId (a : EvEntry) : List EvEntry → List EvEntry
  | [] => [a]
  | b :: l =>
      if a.la < b.la ∨ (a.la = b.la ∧ idLt a.code b.code = true) then a :: b :: l
      else b :: insertLAId a l

/-- Sort by `(lastAccessAt, collectionId)` — the order the claim asserts. -/
def sortLAId : List EvEntry → List EvEntry
  | [] => []
  | x :: xs => insertLAId x (sortLAId xs)

/-- Size eviction exactly as the claim states it: removal in ascending
`(lastAccessAt, collectionId)` order until the remaining total is ≤ 80% of
`maxCacheSize`. -/
def cleanBySizeClaimed (maxC : Nat) (s : CacheState) : CacheState :=
  if totalSize s.metadata ≤ maxC then s
  else evictUntilBuffer maxC ((sortLAId (evEntries s.metadata)).map EvEntry.code) s

/-- `loadMetadata`: read the index file inside a `try`.  A missing file falls
through to `return {}`; a read error or a `JSON.parse` error is caught (and
logged) and also ends in `return {}`.  `fileExists` models `fs.existsSync`,
`readOk` models `readFileSync` not throwing, and `parsed = none` models a
`JSON.parse` failure on the bytes read. -/
def loadMetadata (fileExists readOk : Bool)
    (parsed : Option (List (String × SeriesMeta))) : List (String × SeriesMeta) :=
  if fileExists then
    if readOk then
      match parsed with
      | some md => md
      | none => []
    else []
  else []

/-- Constructing a `CacheManager`: `this.metadata = this.loadMetadata()`, with
whatever artifact files happen to sit in the cache directory. -/
def initCache (fileExists readOk : Bool)
    (parsed : Option (List (String × SeriesMeta)))
    (disk : List (String × String)) : CacheState :=
  { metadata := loadMetadata fileExists readOk parsed, disk := disk, saved := 0 }

/-- The cache operations, for stating state-machine invariants. -/
inductive CacheOp where
  | put (code vid : String) (sz : Nat) (copyOk : Bool)
  | get (code vid : String)
  | removeC (code : String)
  | evict (maxC maxAge : Nat)
deriving DecidableEq, Repr

/-- Apply one cache operation at clock time `now`. -/
def applyOp (op : CacheOp) (now : Nat) (s : CacheState) : CacheState :=
  match op with
  | .put code vid sz copyOk => (cacheVideo now code vid sz copyOk s).1
  | .get code vid => (getCachedVideo now code vid s).1
  | .removeC code => removeSeries code s
  | .evict maxC maxAge => cleanup maxC maxAge now s

/-- External effects and faults of one `handleSeriesRequest` run.  Each flag
abstracts one awaited call inside the `try` block that can reject: `valid` is
`isValidSeries`, `groupFound` is a non-null `getTelegramGroup` result,
`ackReplyThrows` is the "Found series" reply, `fetchThrows` is
`fetchVideosFromGroup`, `videoCount` the fetched list's length,
`processThrows` any later awaited step (the status replies, the delivery loop,
the database update, the completion message), and `catchReplyThrows` the reply
inside the `catch` block. -/
structure DeliveryEnv where
  valid : Bool
  groupFound : Bool
  ackReplyThrows : Bool
  fetchThrows : Bool
  videoCount : Nat
  processThrows : Bool
  catchReplyThrows : Bool
deriving DecidableEq, Repr

/-- How one `handleSeriesRequest` run ended, as observable by the recipient. -/
inductive ReqOutcome where
  | busyRejected
  | invalidSeries
  | emptyList
  | completed
  | handledError
  | rethrown
deriving DecidableEq, Repr

/-- Result of one `handleSeriesRequest` run: the final `activeRequests` map,
the outcome, the number of *effective* lock releases (calls of
`activeRequests.delete(chatId)` that found the key present, i.e. actual
Busy → Idle transitions), and whether the provider fetch was invoked. -/
structure CoordResult where
  requests : List (String × String)
  outcome : ReqOutcome
  releases : Nat
  fetched : Bool
deriving DecidableEq, Repr

/-- `activeRequests.delete(chatId)`, counting whether the key was present. -/
def releaseLock (chatId : String) (m : List (String × String)) :
    List (String × String) × Nat :=
  (removeA chatId m, if (lookupA chatId m).isSome then 1 else 0)

/-- A throw inside the `try` block: control moves to the `catch` block (whose
own reply may throw, turning the run into a rejected promise), and the
`finally` block releases the lock either way. -/
def finishFailure (env : DeliveryEnv) (chatId : String)
    (m : List (String × String)) (fetched : Bool) : CoordResult :=
  let r := releaseLock chatId m
  { requests := r.1
    outcome := if env.catchReplyThrows then .rethrown else .handledError
    releases := r.2
    fetched := fetched }

/-- `MessageHandler.handleSeriesRequest`: the busy guard and the invalid-series
reply happen before the lock is taken; everything after
`activeRequests.set(chatId, code)` sits in a `try` whose `finally` deletes the
key.  The empty-list branch deletes the key itself and then returns, after
which the `finally` block runs its (now ineffective) delete as well. -/
def handleSeriesRequest (env : DeliveryEnv) (chatId code : String)
    (m : List (String × String)) : CoordResult :=
  if (lookupA chatId m).isSome then
    { requests := m, outcome := .busyRejected, releases := 0, fetched := false }
  else if env.valid = false then
    { requests := m, outcome := .invalidSeries, releases := 0, fetched := false }
  else
    let m1 := setA chatId code m
    if env.groupFound = false then finishFailure env chatId m1 false
    else if env.ackReplyThrows then finishFailure env chatId m1 false
    else if env.fetchThrows then finishFailure env chatId m1 true
    else if env.videoCount = 0 then
      if env.processThrows then finishFailure env chatId m1 true
      else
        let r1 := releaseLock chatId m1
        let r2 := releaseLock chatId r1.1
        { requests := r2.1, outcome := .emptyList, releases := r1.2 + r2.2,
          fetched := true }
    else if env.processThrows then finishFailure env chatId m1 true
    else
      let r := releaseLock chatId m1
      { requests := r.1, outcome := .completed, releases := r.2, fetched := true }

/-- Claim C1: every execution of `handleSeriesRequest` that marks the
recipient key Busy (the recipient was idle and the series code valid, so
control reaches `activeRequests.set`) performs exactly one effective release
of that key by the time it returns — on every path: success, per-item partial
failure (a completed delivery loop with skipped items), empty item list
(where an explicit delete precedes the `finally` delete, the latter finding
the key already absent), and thrown error — and the key is no longer Busy
afterwards. -/
theorem lock_released_exactly_once (env : DeliveryEnv) (chatId code : String)
    (m : List (String × String)) (hidle : lookupA chatId m = none)
    (hvalid : env.valid = true) :
    (handleSeriesRequest env chatId code m).releases = 1 ∧
    lookupA chatId (handleSeriesRequest env chatId code m).requests = none := by
  have hset : lookupA chatId (setA chatId code m) = some code :=
    lookupA_setA_self chatId code m
  have hrm : lookupA chatId (removeA chatId (setA chatId code m)) = none :=
    lookupA_removeA_self chatId (setA chatId code m)
  obtain ⟨valid, gf, ar, ft, vc, pt, ct⟩ := env
  simp only at hvalid
  subst hvalid
  cases gf <;> cases ar <;> cases ft <;> cases pt <;> cases ct <;>
      rcases vc with _ | vc <;>
    simp [handleSeriesRequest, finishFailure, releaseLock, hidle, hset, hrm,
      lookupA_removeA_self]

/-- Witness for C1: a concrete idle recipient and valid series, run through a
faulty environment (the provider fetch throws). -/
theorem lock_released_exactly_once_witness :
    lookupA "u1" ([] : List (String × String)) = none ∧
    (handleSeriesRequest
        { valid := true, groupFound := true, ackReplyThrows := false,
          fetchThrows := true, videoCount := 0, processThrows := false,
          catchReplyThrows := false } "u1" "AB001" []).releases = 1 :=
  ⟨rfl,
    (lock_released_exactly_once
      { valid := true, groupFound := true, ackReplyThrows := false,
        fetchThrows := true, videoCount := 0, processThrows := false,
        catchReplyThrows := false } "u1" "AB001" [] rfl rfl).1⟩

/-- Claim C2: a request for a recipient key that is already Busy is rejected
immediately with the Busy reply: the `activeRequests` map is returned
untouched (the in-flight entry, with whatever collection it carries, is still
there — nothing is queued and nothing is cancelled), no release happens and
the provider fetch is never invoked, so at most one fetch-and-deliver
sequence is in flight per recipient key. -/
theorem busy_request_rejected (env : DeliveryEnv) (chatId code c : String)
    (m : List (String × String)) (hbusy : lookupA chatId m = some c) :
    handleSeriesRequest env chatId code m =
      { requests := m, outcome := .busyRejected, releases := 0, fetched := false } := by
  simp [handleSeriesRequest, hbusy]

/-- Witness for C2: recipient `u1` is Busy with collection `AB001`; a new
request (for a different collection, with a fault-free environment) is
rejected and the map is unchanged. -/
theorem busy_request_rejected_witness :
    lookupA "u1" [("u1", "AB001")] = some "AB001" ∧
    handleSeriesRequest
        { valid := true, groupFound := true, ackReplyThrows := false,
          fetchThrows := false, videoCount := 2, processThrows := false,
          catchReplyThrows := false } "u1" "AB002" [("u1", "AB001")] =
      { requests := [("u1", "AB001")], outcome := .busyRejected, releases := 0,
        fetched := false } :=
  ⟨rfl,
    busy_request_rejected
      { valid := true, groupFound := true, ackReplyThrows := false,
        fetchThrows := false, videoCount := 2, processThrows := false,
        catchReplyThrows := false } "u1" "AB002" "AB001" [("u1", "AB001")] rfl⟩

/-- Claim C6: when the artifact copy of `cacheVideo` fails (missing source,
disk full, permission denied — the thrown error is caught and surfaced to the
caller as the failure value `none`, the `StorageError` signal), the metadata
index — indeed the whole cache state — is unchanged: every index mutation sits
after the successful copy. -/
theorem put_copy_failure_leaves_index (now : Nat) (code vid : String) (sz : Nat)
    (s : CacheState) :
    (cacheVideo now code vid sz false s).2 = none ∧
    (cacheVideo now code vid sz false s).1 = s := by
  constructor <;> simp [cacheVideo]

/-- Claim C10: `isSeriesCached` with an empty video-id list is `true` for every
cache state — `Array.prototype.every` on an empty array is vacuously true — so
a collection with no index entry and no on-disk directory still reports as
fully cached when the requested id set is empty. -/
theorem empty_ids_fully_cached (code : String) (s : CacheState) :
    isSeriesCached code [] s = true := rfl

/-- Claim C8: a missing, unreadable or unparseable metadata index file makes
`loadMetadata` yield the empty index (fail-open), so a `CacheManager` built on
such a file is the same state as one built on a missing file, and every
subsequent operation behaves as if starting from the empty index. -/
theorem load_fail_open (fileExists readOk : Bool)
    (parsed : Option (List (String × SeriesMeta))) (disk : List (String × String))
    (h : fileExists = false ∨ readOk = false ∨ parsed = none) :
    initCache fileExists readOk parsed disk = initCache false true none disk ∧
    ∀ (op : CacheOp) (now : Nat),
      applyOp op now (initCache fileExists readOk parsed disk) =
      applyOp op now { metadata := [], disk := disk, saved := 0 } := by
  have hl : loadMetadata fileExists readOk parsed = [] := by
    rcases h with h | h | h
    · subst h
      simp [loadMetadata]
    · subst h
      cases fileExists <;> simp [loadMetadata]
    · subst h
      cases fileExists <;> cases readOk <;> simp [loadMetadata]
  have hs : initCache fileExists readOk parsed disk =
      { metadata := [], disk := disk, saved := 0 } := by
    simp [initCache, hl]
  constructor
  · rw [hs]
    simp [initCache, loadMetadata]
  · intro op now
    rw [hs]

/-- A present but unparseable metadata file, for the C8 witness. -/
def badParseIndex : List (String × SeriesMeta) := [("AB001", ⟨1, 2, 3, []⟩)]

/-- Witness for C8: a present but unreadable index file yields the same
initial state as a missing one. -/
theorem load_fail_open_witness :
    ((true : Bool) = false ∨ (false : Bool) = false ∨
      some badParseIndex = none) ∧
    initCache true false (some badParseIndex) [("AB001", "7")] =
      initCache false true none [("AB001", "7")] :=
  ⟨Or.inr (Or.inl rfl),
    (load_fail_open true false (some badParseIndex) [("AB001", "7")]
      (Or.inr (Or.inl rfl))).1⟩

/-- Claim C5 (amended): a successful `cacheVideo` upserts the video entry,
stamps `lastAccessAt`, persists the index — but triggers no eviction: it never
removes any collection, even when the insert pushes the total size over
`maxCacheSize`; eviction runs only through the separate `cleanup()` entry
point (invoked when the message handler is constructed). -/
theorem put_persists_without_eviction (now : Nat) (code vid : String) (sz : Nat)
    (s : CacheState) :
    (cacheVideo now code vid sz true s).1.saved = s.saved + 1 ∧
    (∀ c : String, (lookupA c s.metadata).isSome = true →
      (lookupA c (cacheVideo now code vid sz true s).1.metadata).isSome = true) ∧
    ∃ m', lookupA code (cacheVideo now code vid sz true s).1.metadata = some m' ∧
      lookupA vid m'.videos = some { size := sz, cachedAt := now } ∧
      m'.lastAccessAt = now := by
  refine ⟨by simp [cacheVideo], ?_, ?_⟩
  · intro c hc
    by_cases h : c = code
    · subst h
      simp [cacheVideo]
    · simp only [cacheVideo, if_true]
      rw [lookupA_setA_ne _ _ h]
      exact hc
  · cases hcode : lookupA code s.metadata with
    | some m =>
        refine ⟨⟨m.createdAt, now, m.accessCount + 1,
          setA vid ⟨sz, now⟩ m.videos⟩, ?_, ?_, rfl⟩
        · simp [cacheVideo, hcode]
        · simp
    | none =>
        refine ⟨⟨now, now, 0 + 1, setA vid ⟨sz, now⟩ []⟩, ?_, ?_, rfl⟩
        · simp [cacheVideo, hcode]
        · simp

/-- The cache state used by the C5 witness and counterexample: an over-age,
least-recently-used collection `B` (60 bytes) and a fresh collection `A`
(30 bytes). -/
def preInsertState : CacheState :=
  { metadata :=
      [("B", ⟨0, 0, 1, [("b1", ⟨60, 0⟩)]⟩),
       ("A", ⟨4900, 4900, 1, [("a1", ⟨30, 4900⟩)]⟩)]
    disk := [("B", "b1"), ("A", "a1")]
    saved := 0 }

/-- Witness for C5's amended theorem at a concrete insert: collection `B` is
still indexed after the insert into `A`. -/
theorem put_persists_without_eviction_witness :
    (lookupA "B" preInsertState.metadata).isSome = true ∧
    (lookupA "B" ((cacheVideo 5000 "A" "a2" 30 true
      preInsertState).1).metadata).isSome = true :=
  ⟨rfl, (put_persists_without_eviction 5000 "A" "a2" 30 preInsertState).2.1 "B" rfl⟩

/-- Counterexample to claim C5 as stated: with `maxCacheSize = 100` and
`maxAge = 1000` at time 5000, a successful insert of a 30-byte video into `A`
pushes the total size to 120 > 100 while the over-age collection `B` sits in
the index; yet no eviction pass follows the insert — `B` is still indexed,
the total still exceeds `maxCacheSize`, and the resulting state differs from
what the eviction pass (`cleanup`, age-based then size-based) would produce,
which removes `B`. -/
theorem put_triggers_eviction_cex :
    lookupA "B" ((cacheVideo 5000 "A" "a2" 30 true preInsertState).1).metadata ≠
      none ∧
    100 < totalSize ((cacheVideo 5000 "A" "a2" 30 true preInsertState).1).metadata ∧
    (cacheVideo 5000 "A" "a2" 30 true preInsertState).1 ≠
      cleanup 100 1000 5000 ((cacheVideo 5000 "A" "a2" 30 true preInsertState).1) ∧
    lookupA "B" (cleanup 100 1000 5000
      ((cacheVideo 5000 "A" "a2" 30 true preInsertState).1)).metadata = none := by
  refine ⟨by decide, by decide, by decide, by decide⟩

/-- Claim C7: `getCachedVideo` on a disk-present video touches the owning
collection — `lastAccessAt` moves to `now` (≥ its previous value under a
non-decreasing clock), `accessCount` strictly increases — persists the index
and returns the storage path; on an absent video it returns `null` and leaves
the state untouched. -/
theorem getItem_touch_semantics (now : Nat) (code vid : String) (s : CacheState)
    (m : SeriesMeta) (hm : lookupA code s.metadata = some m)
    (hclk : m.lastAccessAt ≤ now) :
    (isCached code vid s = true →
      (getCachedVideo now code vid s).2 = some (videoPath code vid) ∧
      (∃ m', lookupA code (getCachedVideo now code vid s).1.metadata = some m' ∧
        m.lastAccessAt ≤ m'.lastAccessAt ∧ m.accessCount < m'.accessCount) ∧
      (getCachedVideo now code vid s).1.saved = s.saved + 1) ∧
    (isCached code vid s = false → getCachedVideo now code vid s = (s, none)) := by
  constructor
  · intro h
    refine ⟨by simp [getCachedVideo, h],
      ⟨{ m with lastAccessAt := now, accessCount := m.accessCount + 1 },
        ?_, hclk, Nat.lt_succ_self m.accessCount⟩,
      by simp [getCachedVideo, h, updateAccessTime, hm]⟩
    simp [getCachedVideo, h, updateAccessTime, hm]
  · intro h
    simp [getCachedVideo, h]

@[simp] theorem removeSeries_metadata (c : String) (s : CacheState) :
    (removeSeries c s).metadata = removeA c s.metadata := rfl

theorem lookupA_removeSeries_none {code : String} (c : String) {s : CacheState}
    (h : lookupA code s.metadata = none) :
    lookupA code (removeSeries c s).metadata = none := by
  by_cases hc : code = c
  · subst hc
    simp
  · rw [removeSeries_metadata, lookupA_removeA_ne _ hc]
    exact h

theorem cleanOldLoop_none {code : String} (maxAge now : Nat) (cs : List String)
    (s : CacheState) (h : lookupA code s.metadata = none) :
    lookupA code (cleanOldLoop maxAge now cs s).metadata = none := by
  induction cs generalizing s with
  | nil => exact h
  | cons c cs ih =>
    cases hc : lookupA c s.metadata with
    | none =>
        simp only [cleanOldLoop, hc]
        exact ih s h
    | some mc =>
        by_cases hage : maxAge < now - mc.createdAt
        · simp only [cleanOldLoop, hc, if_pos hage]
          exact ih _ (lookupA_removeSeries_none c h)
        · simp only [cleanOldLoop, hc, if_neg hage]
          exact ih s h

theorem cleanOldLoop_removed {code : String} {m : SeriesMeta} (maxAge now : Nat)
    (cs : List String) (s : CacheState) (hmem : code ∈ cs)
    (hm : lookupA code s.metadata = some m) (hage : maxAge < now - m.createdAt) :
    lookupA code (cleanOldLoop maxAge now cs s).metadata = none := by
  induction cs generalizing s with
  | nil => cases hmem
  | cons c cs ih =>
    by_cases hcc : c = code
    · subst hcc
      simp only [cleanOldLoop, hm, if_pos hage]
      exact cleanOldLoop_none maxAge now cs _ (by simp)
    · have hmem' : code ∈ cs := by
        rcases List.mem_cons.mp hmem with h | h
        · exact absurd h.symm hcc
        · exact h
      have hne : code ≠ c := fun h => hcc h.symm
      cases hc : lookupA c s.metadata with
      | none =>
          simp only [cleanOldLoop, hc]
          exact ih _ hmem' hm
      | some mc =>
          by_cases hage' : maxAge < now - mc.createdAt
          · simp only [cleanOldLoop, hc, if_pos hage']
            refine ih _ hmem' ?_
            rw [removeSeries_metadata, lookupA_removeA_ne _ hne]
            exact hm
          · simp only [cleanOldLoop, hc, if_neg hage']
            exact ih s hmem' hm

theorem cleanOldLoop_kept {code : String} {m : SeriesMeta} (maxAge now : Nat)
    (cs : List String) (s : CacheState) (hm : lookupA code s.metadata = some m)
    (hfresh : now - m.createdAt ≤ maxAge) :
    lookupA code (cleanOldLoop maxAge now cs s).metadata = some m := by
  induction cs generalizing s with
  | nil => exact hm
  | cons c cs ih =>
    by_cases hcc : c = code
    · subst hcc
      simp only [cleanOldLoop, hm, if_neg (not_lt.mpr hfresh)]
      exact ih s hm
    · have hne : code ≠ c := fun h => hcc h.symm
      cases hc : lookupA c s.metadata with
      | none =>
          simp only [cleanOldLoop, hc]
          exact ih s hm
      | some mc =>
          by_cases hage' : maxAge < now - mc.createdAt
          · simp only [cleanOldLoop, hc, if_pos hage']
            refine ih _ ?_
            rw [removeSeries_metadata, lookupA_removeA_ne _ hne]
            exact hm
          · simp only [cleanOldLoop, hc, if_neg hage']
            exact ih s hm

theorem evictLoop_none {code : String} (maxC : Nat) (L : List EvEntry) (cur : Nat)
    (s : CacheState) (h : lookupA code s.metadata = none) :
    lookupA code (evictLoop maxC L cur s).metadata = none := by
  induction L generalizing cur s with
  | nil => exact h
  | cons e rest ih =>
    by_cases hbuf : 5 * cur ≤ 4 * maxC
    · simp only [evictLoop, if_pos hbuf]
      exact h
    · simp only [evictLoop, if_neg hbuf]
      exact ih _ _ (lookupA_removeSeries_none e.code h)

theorem cleanBySize_none {code : String} (maxC : Nat) (s : CacheState)
    (h : lookupA code s.metadata = none) :
    lookupA code (cleanBySize maxC s).metadata = none := by
  unfold cleanBySize
  by_cases hle : totalSize s.metadata ≤ maxC
  · rw [if_pos hle]
    exact h
  · rw [if_neg hle]
    exact evictLoop_none maxC _ _ s h

/-- Claim C3: after `cleanup` (the `runEviction` of the spec: `cleanOldEntries`
then `cleanBySize`), every collection whose creation age `now - createdAt`
exceeds `maxAge` is absent from the index, for every cache state and size
configuration; and the age check is keyed on `createdAt`, not on
`lastAccessAt` — a collection whose creation age is within `maxAge` survives
the age pass with its entry intact, whatever its `lastAccessAt`, while an
over-age one is removed however recently it was accessed. -/
theorem age_eviction_uses_createdAt (maxC maxAge now : Nat) (s : CacheState)
    (code : String) (m : SeriesMeta) (hm : lookupA code s.metadata = some m) :
    (maxAge < now - m.createdAt →
      lookupA code (cleanup maxC maxAge now s).metadata = none) ∧
    (now - m.createdAt ≤ maxAge →
      lookupA code (cleanOldEntries maxAge now s).metadata = some m) := by
  constructor
  · intro hage
    have hmem : code ∈ s.metadata.map Prod.fst :=
      lookupA_isSome_iff.mp (by rw [hm]; rfl)
    have h1 : lookupA code (cleanOldEntries maxAge now s).metadata = none :=
      cleanOldLoop_removed maxAge now _ s hmem hm hage
    exact cleanBySize_none maxC _ h1
  · intro hfresh
    exact cleanOldLoop_kept maxAge now _ s hm hfresh

/-- The cache state used by the C3 witness: collection `OLD` was created at
time 0 but accessed very recently (`lastAccessAt = 4999`); collection `NEW`
was created recently. -/
def agePassState : CacheState :=
  { metadata :=
      [("OLD", ⟨0, 4999, 9, [("v", ⟨5, 0⟩)]⟩),
       ("NEW", ⟨4990, 4990, 1, [("w", ⟨5, 4990⟩)]⟩)]
    disk := [("OLD", "v"), ("NEW", "w")]
    saved := 0 }

/-- Witness for C3 at `maxAge = 1000`, `now = 5000`, huge `maxCacheSize`:
`OLD` is evicted despite its recent access (the check uses `createdAt`). -/
theorem age_eviction_uses_createdAt_witness :
    lookupA "OLD" agePassState.metadata = some ⟨0, 4999, 9, [("v", ⟨5, 0⟩)]⟩ ∧
    lookupA "OLD" (cleanup 1000000 1000 5000 agePassState).metadata = none :=
  ⟨rfl,
    (age_eviction_uses_createdAt 1000000 1000 5000 agePassState "OLD"
      ⟨0, 4999, 9, [("v", ⟨5, 0⟩)]⟩ rfl).1 (by decide)⟩

@[simp] theorem totalSize_nil : totalSize [] = 0 := rfl

@[simp] theorem totalSize_cons (e : String × SeriesMeta)
    (md : List (String × SeriesMeta)) :
    totalSize (e :: md) = seriesSize e.2 + totalSize md := by
  simp [totalSize]

theorem removeA_of_lookup_none {α : Type} {k : String} {l : List (String × α)}
    (h : lookupA k l = none) : removeA k l = l := by
  induction l with
  | nil => rfl
  | cons e rest ih =>
    by_cases he : e.1 = k
    · simp [lookupA_cons, he] at h
    · simp only [lookupA_cons, if_neg he] at h
      simp [removeA, he, ih h]

theorem totalSize_removeA {k : String} {m : SeriesMeta}
    {md : List (String × SeriesMeta)} (hnd : (md.map Prod.fst).Nodup)
    (h : lookupA k md = some m) :
    totalSize (removeA k md) + seriesSize m = totalSize md := by
  induction md with
  | nil => simp [lookupA] at h
  | cons e rest ih =>
    simp only [List.map_cons, List.nodup_cons] at hnd
    by_cases he : e.1 = k
    · simp only [lookupA_cons, if_pos he] at h
      cases h
      have hnone : lookupA k rest = none := by
        cases hl : lookupA k rest with
        | none => rfl
        | some v =>
            exact absurd (he ▸ List.mem_map.mpr ⟨(k, v), lookupA_mem hl, rfl⟩) hnd.1
      simp only [removeA, if_pos he, removeA_of_lookup_none hnone, totalSize_cons]
      omega
    · simp only [lookupA_cons, if_neg he] at h
      have := ih hnd.2 h
      simp only [removeA, if_neg he, totalSize_cons]
      omega

theorem insertLA_perm (a : EvEntry) (l : List EvEntry) :
    List.Perm (insertLA a l) (a :: l) := by
  induction l with
  | nil => exact List.Perm.refl _
  | cons b t ih =>
    by_cases h : a.la ≤ b.la
    · simp [insertLA, h]
    · simp only [insertLA, if_neg h]
      exact (ih.cons b).trans (List.Perm.swap a b t)

theorem sortLA_perm (l : List EvEntry) : List.Perm (sortLA l) l := by
  induction l with
  | nil => exact List.Perm.refl _
  | cons x xs ih =>
    exact (insertLA_perm x (sortLA xs)).trans (ih.cons x)

theorem insertLA_pairwise {a : EvEntry} {l : List EvEntry}
    (h : List.Pairwise (fun x y : EvEntry => x.la ≤ y.la) l) :
    List.Pairwise (fun x y : EvEntry => x.la ≤ y.la) (insertLA a l) := by
  induction l with
  | nil => simp [insertLA]
  | cons b t ih =>
    rcases List.pairwise_cons.mp h with ⟨hb, ht⟩
    by_cases hab : a.la ≤ b.la
    · simp only [insertLA, if_pos hab]
      refine List.pairwise_cons.mpr ⟨?_, h⟩
      intro y hy
      rcases List.mem_cons.mp hy with hy' | hy'
      · rw [hy']
        exact hab
      · exact le_trans hab (hb y hy')
    · simp only [insertLA, if_neg hab]
      refine List.pairwise_cons.mpr ⟨?_, ih ht⟩
      intro y hy
      rcases List.mem_cons.mp ((insertLA_perm a t).mem_iff.mp hy) with hy' | hy'
      · rw [hy']
        exact le_of_not_le hab
      · exact hb y hy'

theorem sortLA_pairwise (l : List EvEntry) :
    List.Pairwise (fun x y : EvEntry => x.la ≤ y.la) (sortLA l) := by
  induction l with
  | nil => simp [sortLA]
  | cons x xs ih => exact insertLA_pairwise ih

theorem evEntries_keys (md : List (String × SeriesMeta)) :
    (evEntries md).map EvEntry.code = md.map Prod.fst := by
  simp [evEntries, List.map_map]

theorem evictLoop_eq (maxC : Nat) (L : List EvEntry) (cur : Nat) (s : CacheState)
    (hmd : (s.metadata.map Prod.fst).Nodup)
    (hsz : ∀ e ∈ L, ∃ m, lookupA e.code s.metadata = some m ∧ seriesSize m = e.sz)
    (hndL : (L.map EvEntry.code).Nodup)
    (hcur : cur = totalSize s.metadata) :
    evictLoop maxC L cur s = evictUntilBuffer maxC (L.map EvEntry.code) s := by
  induction L generalizing cur s with
  | nil => rfl
  | cons e rest ih =>
    simp only [evictLoop, List.map_cons, evictUntilBuffer, ← hcur]
    by_cases hbuf : 5 * cur ≤ 4 * maxC
    · rw [if_pos hbuf, if_pos hbuf]
    · rw [if_neg hbuf, if_neg hbuf]
      obtain ⟨m, hlk, hszm⟩ := hsz e (List.mem_cons_self e rest)
      simp only [List.map_cons, List.nodup_cons] at hndL
      apply ih
      · exact keys_removeA_nodup e.code hmd
      · intro e' he'
        obtain ⟨m', hlk', hszm'⟩ := hsz e' (List.mem_cons_of_mem _ he')
        have hne : e'.code ≠ e.code := by
          intro hcc
          exact hndL.1 (hcc ▸ List.mem_map.mpr ⟨e', he', rfl⟩)
        refine ⟨m', ?_, hszm'⟩
        rw [removeSeries_metadata, lookupA_removeA_ne _ hne]
        exact hlk'
      · exact hndL.2
      · have := totalSize_removeA hmd hlk
        rw [removeSeries_metadata]
        omega

theorem evictUntilBuffer_total (maxC : Nat) (cs : List String) (s : CacheState)
    (hmd : (s.metadata.map Prod.fst).Nodup)
    (hcov : ∀ k, (lookupA k s.metadata).isSome = true → k ∈ cs) :
    5 * totalSize (evictUntilBuffer maxC cs s).metadata ≤ 4 * maxC := by
  induction cs generalizing s with
  | nil =>
      cases hmd0 : s.metadata with
      | nil => simp [evictUntilBuffer, hmd0]
      | cons e rest =>
          have hsome : (lookupA e.1 s.metadata).isSome = true := by
            rw [hmd0]
            simp [lookupA_cons]
          exact absurd (hcov e.1 hsome) (List.not_mem_nil e.1)
  | cons c cs ih =>
      simp only [evictUntilBuffer]
      by_cases hbuf : 5 * totalSize s.metadata ≤ 4 * maxC
      · rw [if_pos hbuf]
        exact hbuf
      · rw [if_neg hbuf]
        apply ih
        · exact keys_removeA_nodup c hmd
        · intro k hk
          have hkc : k ≠ c := by
            intro hkc
            rw [hkc, removeSeries_metadata, lookupA_removeA_self] at hk
            cases hk
          rw [removeSeries_metadata, lookupA_removeA_ne _ hkc] at hk
          rcases List.mem_cons.mp (hcov k hk) with h | h
          · exact absurd h hkc
          · exact h

theorem evictLoop_order (maxC : Nat) (L : List EvEntry) (cur : Nat) (s : CacheState)
    (hmd : (s.metadata.map Prod.fst).Nodup)
    (hagree : ∀ e ∈ L, ∀ m, lookupA e.code s.metadata = some m →
      m.lastAccessAt = e.la)
    (hcov : ∀ k, (lookupA k s.metadata).isSome = true → k ∈ L.map EvEntry.code)
    (hla : List.Pairwise (fun x y : EvEntry => x.la ≤ y.la) L) :
    ∀ p ∈ s.metadata, ∀ q ∈ s.metadata,
      lookupA p.1 (evictLoop maxC L cur s).metadata = none →
      (lookupA q.1 (evictLoop maxC L cur s).metadata).isSome = true →
      p.2.lastAccessAt ≤ q.2.lastAccessAt := by
  induction L generalizing cur s with
  | nil =>
      intro p hp q hq hpn hqs
      have := mem_lookupA hmd hp
      simp only [evictLoop] at hpn
      rw [hpn] at this
      exact Option.noConfusion this
  | cons e rest ih =>
      intro p hp q hq hpn hqs
      by_cases hbuf : 5 * cur ≤ 4 * maxC
      · simp only [evictLoop, if_pos hbuf] at hpn
        have := mem_lookupA hmd hp
        rw [hpn] at this
        exact Option.noConfusion this
      · simp only [evictLoop, if_neg hbuf] at hpn hqs
        have hqe : q.1 ≠ e.code := by
          intro hq1
          have hnone : lookupA q.1 (removeSeries e.code s).metadata = none := by
            rw [hq1, removeSeries_metadata, lookupA_removeA_self]
          rw [evictLoop_none maxC rest (cur - e.sz) _ hnone] at hqs
          cases hqs
        have hq' : q ∈ (removeSeries e.code s).metadata := by
          rw [removeSeries_metadata]
          exact mem_removeA_of_ne hq hqe
        have hmd' : (((removeSeries e.code s).metadata).map Prod.fst).Nodup := by
          rw [removeSeries_metadata]
          exact keys_removeA_nodup e.code hmd
        have hagree' : ∀ e' ∈ rest, ∀ m,
            lookupA e'.code (removeSeries e.code s).metadata = some m →
            m.lastAccessAt = e'.la := by
          intro e' he' m hm
          by_cases hce : e'.code = e.code
          · rw [hce, removeSeries_metadata, lookupA_removeA_self] at hm
            exact Option.noConfusion hm
          · rw [removeSeries_metadata, lookupA_removeA_ne _ hce] at hm
            exact hagree e' (List.mem_cons_of_mem _ he') m hm
        have hcov' : ∀ k, (lookupA k (removeSeries e.code s).metadata).isSome = true →
            k ∈ rest.map EvEntry.code := by
          intro k hk
          have hkc : k ≠ e.code := by
            intro hkc
            rw [hkc, removeSeries_metadata, lookupA_removeA_self] at hk
            cases hk
          rw [removeSeries_metadata, lookupA_removeA_ne _ hkc] at hk
          have hmem : k ∈ e.code :: rest.map EvEntry.code := by
            have := hcov k hk
            rwa [List.map_cons] at this
          rcases List.mem_cons.mp hmem with h | h
          · exact absurd h hkc
          · exact h
        have hpair := List.pairwise_cons.mp hla
        by_cases hpe : p.1 = e.code
        · have hpla : p.2.lastAccessAt = e.la :=
            hagree e (List.mem_cons_self e rest) p.2
              (by rw [← hpe]; exact mem_lookupA hmd hp)
          have hqsome : (lookupA q.1 (removeSeries e.code s).metadata).isSome = true := by
            rw [mem_lookupA hmd' hq']
            rfl
          obtain ⟨e', he', hecode⟩ := List.mem_map.mp (hcov' q.1 hqsome)
          have hqla : q.2.lastAccessAt = e'.la :=
            hagree e' (List.mem_cons_of_mem _ he') q.2
              (by rw [hecode]; exact mem_lookupA hmd hq)
          rw [hpla, hqla]
          exact hpair.1 e' he'
        · have hp' : p ∈ (removeSeries e.code s).metadata := by
            rw [removeSeries_metadata]
            exact mem_removeA_of_ne hp hpe
          exact ih (cur - e.sz) _ hmd' hagree' hcov' hpair.2 p hp' q hq' hpn hqs

/-- Claim C4 (amended): `cleanBySize` removes nothing while the total size is
within `maxCacheSize`; otherwise it removes whole collections in ascending
`lastAccessAt` order with ties broken by the metadata index's insertion order
(the stable sort's order), not by `collectionId`, stopping as soon as the
remaining recomputed total is ≤ 80% of `maxCacheSize` (`cleanBySizeStable`,
written after the amended claim, coincides with it); when eviction runs, the
remaining total always reaches the 80% buffer, and no evicted collection has
a strictly later `lastAccessAt` than any retained one. -/
theorem size_eviction_stable_lru (maxC : Nat) (s : CacheState)
    (hnd : (s.metadata.map Prod.fst).Nodup) :
    (totalSize s.metadata ≤ maxC → cleanBySize maxC s = s) ∧
    cleanBySize maxC s = cleanBySizeStable maxC s ∧
    (maxC < totalSize s.metadata →
      5 * totalSize (cleanBySize maxC s).metadata ≤ 4 * maxC) ∧
    (∀ p ∈ s.metadata, ∀ q ∈ s.metadata,
      lookupA p.1 (cleanBySize maxC s).metadata = none →
      (lookupA q.1 (cleanBySize maxC s).metadata).isSome = true →
      p.2.lastAccessAt ≤ q.2.lastAccessAt) := by
  have hperm : List.Perm (sortLA (evEntries s.metadata)) (evEntries s.metadata) :=
    sortLA_perm _
  have hkeys : ((sortLA (evEntries s.metadata)).map EvEntry.code).Nodup := by
    refine ((hperm.map EvEntry.code).nodup_iff).mpr ?_
    rw [evEntries_keys]
    exact hnd
  have hsz : ∀ e ∈ sortLA (evEntries s.metadata),
      ∃ m, lookupA e.code s.metadata = some m ∧ seriesSize m = e.sz := by
    intro e he
    obtain ⟨p, hp, hpe⟩ := List.mem_map.mp (hperm.mem_iff.mp he)
    refine ⟨p.2, ?_, ?_⟩
    · rw [← hpe]
      exact mem_lookupA hnd hp
    · rw [← hpe]
  have hagree : ∀ e ∈ sortLA (evEntries s.metadata), ∀ m,
      lookupA e.code s.metadata = some m → m.lastAccessAt = e.la := by
    intro e he m hm
    obtain ⟨p, hp, hpe⟩ := List.mem_map.mp (hperm.mem_iff.mp he)
    have h2 := mem_lookupA hnd hp
    have hm' : lookupA p.1 s.metadata = some m := by
      rw [← hpe] at hm
      exact hm
    have hpm : p.2 = m := Option.some.inj (h2.symm.trans hm')
    rw [← hpm, ← hpe]
  have hcov : ∀ k, (lookupA k s.metadata).isSome = true →
      k ∈ (sortLA (evEntries s.metadata)).map EvEntry.code := by
    intro k hk
    have h1 : k ∈ s.metadata.map Prod.fst := lookupA_isSome_iff.mp hk
    rw [← evEntries_keys] at h1
    exact ((hperm.map EvEntry.code).mem_iff).mpr h1
  refine ⟨?_, ?_, ?_, ?_⟩
  · intro h
    simp [cleanBySize, if_pos h]
  · unfold cleanBySize cleanBySizeStable
    by_cases hle : totalSize s.metadata ≤ maxC
    · rw [if_pos hle, if_pos hle]
    · rw [if_neg hle, if_neg hle]
      exact evictLoop_eq maxC _ _ s hnd hsz hkeys rfl
  · intro h
    have hle : ¬ totalSize s.metadata ≤ maxC := not_le.mpr h
    unfold cleanBySize
    rw [if_neg hle, evictLoop_eq maxC _ _ s hnd hsz hkeys rfl]
    exact evictUntilBuffer_total maxC _ s hnd hcov
  · intro p hp q hq hpn hqs
    by_cases hle : totalSize s.metadata ≤ maxC
    · unfold cleanBySize at hpn
      rw [if_pos hle] at hpn
      have := mem_lookupA hnd hp
      rw [hpn] at this
      exact Option.noConfusion this
    · unfold cleanBySize at hpn hqs
      rw [if_neg hle] at hpn hqs
      exact evictLoop_order maxC _ _ s hnd hagree hcov (sortLA_pairwise _)
        p hp q hq hpn hqs

/-- The cache state used by the C4 witness and counterexample: two collections
with identical `lastAccessAt = 5` and 60-byte videos, inserted into the index
in the order `B` then `A`. -/
def tieState : CacheState :=
  { metadata :=
      [("B", ⟨0, 5, 1, [("b1", ⟨60, 0⟩)]⟩),
       ("A", ⟨0, 5, 1, [("a1", ⟨60, 0⟩)]⟩)]
    disk := [("B", "b1"), ("A", "a1")]
    saved := 0 }

/-- Witness for C4's amended theorem on the concrete tie state. -/
theorem size_eviction_stable_lru_witness :
    (tieState.metadata.map Prod.fst).Nodup ∧
    cleanBySize 100 tieState = cleanBySizeStable 100 tieState :=
  ⟨by decide, (size_eviction_stable_lru 100 tieState (by decide)).2.1⟩

/-- Counterexample to claim C4 as stated: with `maxCacheSize = 100` the tie
state (total 120) needs one eviction.  The code's stable sort keeps the
insertion order `B`, `A` for the `lastAccessAt` tie and evicts `B`; the
claimed `collectionId` tie-break would sort `A` first and evict `A`.  The two
results differ, so ties are not broken by `collectionId`. -/
theorem size_eviction_tiebreak_cex :
    cleanBySize 100 tieState ≠ cleanBySizeClaimed 100 tieState ∧
    lookupA "A" (cleanBySize 100 tieState).metadata ≠ none ∧
    lookupA "B" (cleanBySize 100 tieState).metadata = none ∧
    lookupA "A" (cleanBySizeClaimed 100 tieState).metadata = none := by
  refine ⟨by decide, by decide, by decide, by decide⟩

/-- The data-model invariant of the spec, relative to the current clock `t`:
every indexed collection satisfies `createdAt ≤ lastAccessAt`, and no
timestamp lies in the future. -/
def TimeInv (t : Nat) (s : CacheState) : Prop :=
  ∀ e ∈ s.metadata, e.2.createdAt ≤ e.2.lastAccessAt ∧ e.2.lastAccessAt ≤ t

instance timeInvDecidable (t : Nat) (s : CacheState) : Decidable (TimeInv t s) :=
  List.decidableBAll _ s.metadata

theorem timeInv_mono {t t' : Nat} {s : CacheState} (h : TimeInv t s) (ht : t ≤ t') :
    TimeInv t' s :=
  fun e he => ⟨(h e he).1, le_trans (h e he).2 ht⟩

theorem mem_cleanOldLoop_metadata (maxAge now : Nat) (cs : List String)
    (s : CacheState) {e : String × SeriesMeta}
    (h : e ∈ (cleanOldLoop maxAge now cs s).metadata) : e ∈ s.metadata := by
  induction cs generalizing s with
  | nil => exact h
  | cons c cs ih =>
    cases hc : lookupA c s.metadata with
    | none =>
        simp only [cleanOldLoop, hc] at h
        exact ih s h
    | some mc =>
        by_cases hage : maxAge < now - mc.createdAt
        · simp only [cleanOldLoop, hc, if_pos hage] at h
          exact mem_removeA (ih _ h)
        · simp only [cleanOldLoop, hc, if_neg hage] at h
          exact ih s h

theorem mem_evictLoop_metadata (maxC : Nat) (L : List EvEntry) (cur : Nat)
    (s : CacheState) {e : String × SeriesMeta}
    (h : e ∈ (evictLoop maxC L cur s).metadata) : e ∈ s.metadata := by
  induction L generalizing cur s with
  | nil => exact h
  | cons a rest ih =>
    by_cases hbuf : 5 * cur ≤ 4 * maxC
    · simp only [evictLoop, if_pos hbuf] at h
      exact h
    · simp only [evictLoop, if_neg hbuf] at h
      exact mem_removeA (ih _ _ h)

theorem mem_cleanBySize_metadata (maxC : Nat) (s : CacheState)
    {e : String × SeriesMeta} (h : e ∈ (cleanBySize maxC s).metadata) :
    e ∈ s.metadata := by
  unfold cleanBySize at h
  by_cases hle : totalSize s.metadata ≤ maxC
  · rw [if_pos hle] at h
    exact h
  · rw [if_neg hle] at h
    exact mem_evictLoop_metadata maxC _ _ s h

theorem mem_cleanup_metadata (maxC maxAge now : Nat) (s : CacheState)
    {e : String × SeriesMeta} (h : e ∈ (cleanup maxC maxAge now s).metadata) :
    e ∈ s.metadata :=
  mem_cleanOldLoop_metadata maxAge now _ s (mem_cleanBySize_metadata maxC _ h)

/-- Claim C9: for every cache operation (insert, lookup, removal, eviction)
executed at a time `t'` not before the clock `t` under which the state was
formed, the invariant `createdAt ≤ lastAccessAt` (together with "no timestamp
is in the future") is preserved for every collection entry. -/
theorem timestamps_invariant_preserved (op : CacheOp) (t t' : Nat) (s : CacheState)
    (hinv : TimeInv t s) (ht : t ≤ t') : TimeInv t' (applyOp op t' s) := by
  have hmono : TimeInv t' s := timeInv_mono hinv ht
  cases op with
  | put code vid sz copyOk =>
      cases copyOk with
      | false =>
          intro e he
          simp only [applyOp, cacheVideo, Bool.false_eq_true, if_false] at he
          exact hmono e he
      | true =>
          intro e he
          simp only [applyOp] at he
          cases hcode : lookupA code s.metadata with
          | some m =>
              simp only [cacheVideo, hcode, if_true] at he
              rcases mem_setA he with he' | he'
              · have hm := hmono (code, m) (lookupA_mem hcode)
                subst he'
                exact ⟨le_trans hm.1 hm.2, le_refl t'⟩
              · exact hmono e he'
          | none =>
              simp only [cacheVideo, hcode, if_true] at he
              rcases mem_setA he with he' | he'
              · subst he'
                exact ⟨le_refl t', le_refl t'⟩
              · exact hmono e he'
  | get code vid =>
      by_cases hcached : isCached code vid s = true
      · intro e he
        simp only [applyOp, getCachedVideo, hcached, if_true] at he
        cases hcode : lookupA code s.metadata with
        | some m =>
            simp only [updateAccessTime, hcode] at he
            rcases mem_setA he with he' | he'
            · have hm := hmono (code, m) (lookupA_mem hcode)
              subst he'
              exact ⟨le_trans hm.1 hm.2, le_refl t'⟩
            · exact hmono e he'
        | none =>
            simp only [updateAccessTime, hcode] at he
            exact hmono e he
      · intro e he
        simp only [applyOp, getCachedVideo, hcached, if_false] at he
        exact hmono e he
  | removeC code =>
      intro e he
      simp only [applyOp, removeSeries_metadata] at he
      exact hmono e (mem_removeA he)
  | evict maxC maxAge =>
      intro e he
      simp only [applyOp] at he
      exact hmono e (mem_cleanup_metadata maxC maxAge t' s he)

/-- A concrete well-formed cache state for the C9 witness. -/
def wellFormedState : CacheState :=
  { metadata := [("AB001", ⟨10, 20, 4, [("7", ⟨9, 10⟩)]⟩)]
    disk := [("AB001", "7")]
    saved := 0 }

/-- Witness for C9: a concrete well-formed state, advanced clock, and a `get`
operation that touches the indexed series. -/
theorem timestamps_invariant_preserved_witness :
    TimeInv 20 wellFormedState ∧
    TimeInv 25 (applyOp (.get "AB001" "7") 25 wellFormedState) :=
  ⟨by decide,
    timestamps_invariant_preserved (.get "AB001" "7") 20 25 wellFormedState
      (by decide) (by decide)⟩

/-- The cache state used by the C7 witness: one series with one cached video. -/
def oneHitState : CacheState :=
  { metadata := [("AB001", ⟨10, 20, 4, [("7", ⟨9, 10⟩)]⟩)]
    disk := [("AB001", "7")]
    saved := 0 }

/-- Witness for C7: a concrete hit on a present video returns its path. -/
theorem getItem_touch_semantics_witness :
    lookupA "AB001" oneHitState.metadata = some ⟨10, 20, 4, [("7", ⟨9, 10⟩)]⟩ ∧
    (getCachedVideo 25 "AB001" "7" oneHitState).2 = some (videoPath "AB001" "7") :=
  ⟨rfl,
    ((getItem_touch_semantics 25 "AB001" "7" oneHitState ⟨10, 20, 4, [("7", ⟨9, 10⟩)]⟩
      rfl (by decide)).1 (by decide)).1⟩

end WABot
